import Mathlib

/-!
Verification development for the Mastermind strategy notebook (C = 6 colors,
P = 4 positions).  The Python source is embedded shallowly: pure functions
become Lean functions on `Nat` / `List Nat`, the NumPy score table becomes an
entry function, `collections.Counter` intersection becomes multiset
intersection, and the guess-selection loop of `Knuth.solve` becomes a fold.
-/

set_option maxRecDepth 40000

/-- Embeds `encode_guess` (base-6 encoding, digit = color - 1).  Colors are
`≥ 1` in every use below, where `Nat` subtraction agrees with Python. -/
def encode_guess (guess : List Nat) : Nat :=
  guess.foldl (fun index element => index * 6 + (element - 1)) 0

/-- The `while len(guess) < 4` loop of `decode_guess`, one constructor per
iteration; each step prepends `index % 6 + 1` and continues with `index / 6`. -/
def decode_guess_loop : Nat → Nat → List Nat → List Nat
  | 0, _, guess => guess
  | n + 1, index, guess => decode_guess_loop n (index / 6) ((index % 6 + 1) :: guess)

/-- Embeds `decode_guess`. -/
def decode_guess (index : Nat) : List Nat :=
  decode_guess_loop 4 index []

/-- Embeds `sum((Counter(guess) & Counter(possible)).values())`: the size of
the multiset intersection of the two color collections. -/
def counter_inter_total (guess possible : List Nat) : Nat :=
  ((guess : Multiset Nat) ∩ (possible : Multiset Nat)).card

/-- Embeds `get_score`: black = exact position matches, white = multiset
color intersection minus black. -/
def get_score (guess possible : List Nat) : Nat × Nat :=
  let black := (guess.zip possible).countP fun p => p.1 == p.2
  let white := counter_inter_total guess possible - black
  (black, white)

/-- Embeds `encode_score`. -/
def encode_score (score : Nat × Nat) : Nat := 16 * score.1 + score.2

/-- Embeds `decode_score` (`divmod(score, 16)`). -/
def decode_score (score : Nat) : Nat × Nat := (score / 16, score % 16)

/-- Embeds `WIN = encode_score((4, 0))`. -/
def WIN : Nat := encode_score (4, 0)

/-- Embeds `starting_possibilities = list(product(range(1, 7), repeat=4))`
(lexicographic enumeration of all codes). -/
def starting_possibilities : List (List Nat) :=
  [1, 2, 3, 4, 5, 6].flatMap fun a =>
    [1, 2, 3, 4, 5, 6].flatMap fun b =>
      [1, 2, 3, 4, 5, 6].flatMap fun c =>
        [1, 2, 3, 4, 5, 6].map fun d => [a, b, c, d]

/-- Embeds `starting_guesses` (the five first-guess color patterns). -/
def starting_guesses : List (List Nat) :=
  [[1, 1, 1, 1], [1, 1, 1, 2], [1, 1, 2, 2], [1, 1, 2, 3], [1, 2, 3, 4]]

/-- Embeds `starting_poss_indexes = np.arange(6**4)`. -/
def starting_poss_indexes : List Nat := List.range 1296

/-- Embeds `starting_guess_indexes = list(map(encode_guess, starting_guesses))`. -/
def starting_guess_indexes : List Nat := starting_guesses.map encode_guess

/-- Embeds the `scores` table fill loop: entry `(row, col)` with `row > col`
copies the already-filled mirror entry `(col, row)`, every other entry is
`encode_score(get_score(starting_possibilities[row], starting_possibilities[col]))`. -/
def scores (row col : Nat) : Nat :=
  if row > col then
    encode_score (get_score (starting_possibilities.getD col [])
      (starting_possibilities.getD row []))
  else
    encode_score (get_score (starting_possibilities.getD row [])
      (starting_possibilities.getD col []))

/-- Embeds `check_wlog`: decode, take the distinct colors sorted descending,
fail on an adjacent pair `(a, b)` with `a > 3` and `a - b > 1`, and fail when
the final loop variable `b` (the smallest distinct color, also for a
single-color code) exceeds 3. -/
def check_wlog (guess : Nat) : Bool :=
  let L := List.insertionSort (fun a b => a ≥ b) (decode_guess guess).dedup
  ((L.zip L.tail).all fun p => !(decide (p.1 > 3 ∧ p.1 - p.2 > 1))) &&
    !(decide (L.getLast?.getD 0 > 3))

/-- One update of the tally behind `Counter(scores[guess, remaining])`: walk
the association list and increment the entry of the given score, appending a
fresh entry for a first occurrence. -/
def bumpCount : List (Nat × Nat) → Nat → List (Nat × Nat)
  | [], x => [(x, 1)]
  | (k, v) :: rest, x =>
    if k = x then (k, v + 1) :: rest else (k, v) :: bumpCount rest x

/-- The tally of `Counter(xs)`: one `(value, multiplicity)` pair per distinct
element, in first-occurrence order. -/
def countValues (xs : List Nat) : List (Nat × Nat) :=
  xs.foldl bumpCount []

/-- Embeds `current = float('inf') if not counts else max(counts)`:
`none` plays the role of infinity. -/
def guess_cost (remaining : List Nat) (guess : Nat) : Option Nat :=
  ((countValues (remaining.map fun r => scores guess r)).map Prod.snd).max?

/-- `current < minimax` on costs, where `none` is `float('inf')`. -/
def optLT : Option Nat → Option Nat → Bool
  | some a, some b => decide (a < b)
  | some _, none => true
  | none, _ => false

/-- One iteration of the `for guess in guesses` selection loop of
`Knuth.solve`: state is `(minimax, best_guess)`; a strictly cheaper guess
replaces the best, and on an exact tie the new guess wins only when the
current best is no longer in `remaining` while the new guess is. -/
def findBestAux (remaining : List Nat) (st : Option Nat × Option Nat)
    (guess : Nat) : Option Nat × Option Nat :=
  let current := guess_cost remaining guess
  if optLT current st.1 then (current, some guess)
  else
    match st.2 with
    | none => st
    | some best =>
      if current == st.1 && !(remaining.contains best) && remaining.contains guess
      then (st.1, some guess)
      else st

/-- The full `find best guess` loop of `Knuth.solve`, returning `best_guess`
(`none` exactly when the loop never assigned it). -/
def find_best_guess (guesses remaining : List Nat) : Option Nat :=
  (guesses.foldl (findBestAux remaining) (none, none)).2

/-- `groups[score].append(possible)` on an insertion-ordered association
list. -/
def addToGroup : List (Nat × List Nat) → Nat → Nat → List (Nat × List Nat)
  | [], s, x => [(s, [x])]
  | (k, g) :: rest, s, x =>
    if k = s then (k, g ++ [x]) :: rest else (k, g) :: addToGroup rest s x

/-- Embeds the partition loop of `Knuth.solve`: group every member of
`remaining` other than the chosen guess by its score against that guess. -/
def groupsOf (best_guess : Nat) (remaining : List Nat) : List (Nat × List Nat) :=
  remaining.foldl
    (fun acc possible =>
      if best_guess ≠ possible then addToGroup acc (scores best_guess possible) possible
      else acc)
    []

/-- Embeds the `Mastermind` game environment state. -/
structure Mastermind where
  secret : List Nat
  secret_counts : Multiset Nat
  return_history : Bool
  history : List (List Nat × (Nat × Nat))

/-- Embeds `Mastermind.set`: clear the counts and the history, store the
secret, and recount its colors. -/
def Mastermind.set (M : Mastermind) (secret : List Nat) : Mastermind :=
  { M with secret := secret, secret_counts := (secret : Multiset Nat), history := [] }

/-- The score computed inside `Mastermind.step`: black from positionwise
comparison against the stored secret, white from `secret_counts & Counter(guess)`
minus black. -/
def Mastermind.step_score (M : Mastermind) (guess : List Nat) : Nat × Nat :=
  let black := (M.secret.zip guess).countP fun p => p.1 == p.2
  let white := (M.secret_counts ∩ (guess : Multiset Nat)).card - black
  (black, white)

/-- Embeds `Mastermind.step`: append `(guess, score)` to the history and
return the full history when `return_history` is set, the latest score
otherwise. -/
def Mastermind.step (M : Mastermind) (guess : List Nat) :
    Mastermind × (List (List Nat × (Nat × Nat)) ⊕ (Nat × Nat)) :=
  let score := M.step_score guess
  let M2 := { M with history := M.history ++ [(guess, score)] }
  (M2, if M.return_history then Sum.inl M2.history else Sum.inr score)

/-- Embeds the per-pair semantics of `vectorized_mastermind_score`: zero out
the exact matches of the first array against the second. -/
def vec_masked (g s : List Nat) : List Nat :=
  (g.zip s).map fun p => if p.1 == p.2 then 0 else p.1

/-- `black_pegs_matrix` entry: the number of exact matches. -/
def vec_black (g s : List Nat) : Nat :=
  (g.zip s).countP fun p => p.1 == p.2

/-- `white_pegs_matrix` entry: per color 1..6, the minimum of the positive
`bincount`s of the two masked rows, summed. -/
def vec_white (g s : List Nat) : Nat :=
  ([1, 2, 3, 4, 5, 6].map fun c =>
    min ((vec_masked g s).count c) ((vec_masked s g).count c)).sum

/-- `encode_mastermind_score_matrix` entry: `black * 16 + white`. -/
def vec_encoded (g s : List Nat) : Nat :=
  vec_black g s * 16 + vec_white g s

/-- The claim's candidate-cost reading: the size of the largest group when
`remaining` is split by score against the guess. -/
def largest_group_size (remaining : List Nat) (guess : Nat) : Nat :=
  (((remaining.map fun r => scores guess r).dedup).map fun s =>
    ((remaining.map fun r => scores guess r).count s)).foldl max 0

/-- The distinct colors of a code, sorted descending (spec reading used by the
symmetry-pruner claim). -/
def distinctDesc (code : List Nat) : List Nat :=
  List.insertionSort (fun a b => a ≥ b) code.dedup

/-- The claim's characterization of a canonical code: scanning adjacent pairs
of the distinct colors sorted descending, no color above 3 may sit more than
one above the next lower distinct color, and the smallest color used must not
exceed 3. -/
def specCanonical (code : List Nat) : Prop :=
  (∀ p ∈ (distinctDesc code).zip (distinctDesc code).tail, ¬(p.1 > 3 ∧ p.1 - p.2 > 1)) ∧
    (∃ x ∈ code, x ≤ 3)

instance (code : List Nat) : Decidable (specCanonical code) := by
  unfold specCanonical; infer_instance

/-! ### Codec helper lemmas -/

theorem decode_guess_closed (i : Nat) :
    decode_guess i = [i / 216 % 6 + 1, i / 36 % 6 + 1, i / 6 % 6 + 1, i % 6 + 1] := by
  simp [decode_guess, decode_guess_loop, Nat.div_div_eq_div_mul]

theorem decode_guess_length (i : Nat) : (decode_guess i).length = 4 := by
  rw [decode_guess_closed]; rfl

theorem decode_guess_valid (i : Nat) : ∀ x ∈ decode_guess i, 1 ≤ x ∧ x ≤ 6 := by
  rw [decode_guess_closed]
  intro x hx
  simp only [List.mem_cons, List.not_mem_nil, or_false] at hx
  omega

theorem decode_guess_mod (i : Nat) : decode_guess i = decode_guess (i % 1296) := by
  rw [decode_guess_closed, decode_guess_closed]
  simp only [List.cons.injEq, and_true]
  omega

theorem exists_four {c : List Nat} (h : c.length = 4) :
    ∃ a b e d, c = [a, b, e, d] := by
  match c, h with
  | [a, b, e, d], _ => exact ⟨a, b, e, d, rfl⟩

theorem encode_decode_ball : ∀ i, i < 1296 → encode_guess (decode_guess i) = i := by
  decide!

theorem decode_encode_ball :
    ∀ a < 6, ∀ b < 6, ∀ e < 6, ∀ d < 6,
      decode_guess (encode_guess [a + 1, b + 1, e + 1, d + 1]) = [a + 1, b + 1, e + 1, d + 1] := by
  decide!

theorem encode_lt_ball :
    ∀ a < 6, ∀ b < 6, ∀ e < 6, ∀ d < 6,
      encode_guess [a + 1, b + 1, e + 1, d + 1] < 1296 := by
  decide!

theorem decode_encode_of_valid {c : List Nat} (hlen : c.length = 4)
    (hval : ∀ x ∈ c, 1 ≤ x ∧ x ≤ 6) : decode_guess (encode_guess c) = c := by
  obtain ⟨a, b, e, d, rfl⟩ := exists_four hlen
  obtain ⟨ha1, ha6⟩ := hval a (by simp)
  obtain ⟨hb1, hb6⟩ := hval b (by simp)
  obtain ⟨he1, he6⟩ := hval e (by simp)
  obtain ⟨hd1, hd6⟩ := hval d (by simp)
  have := decode_encode_ball (a - 1) (by omega) (b - 1) (by omega) (e - 1) (by omega)
    (d - 1) (by omega)
  have ha : a - 1 + 1 = a := by omega
  have hb : b - 1 + 1 = b := by omega
  have he : e - 1 + 1 = e := by omega
  have hd : d - 1 + 1 = d := by omega
  rwa [ha, hb, he, hd] at this

theorem encode_lt_of_valid {c : List Nat} (hlen : c.length = 4)
    (hval : ∀ x ∈ c, 1 ≤ x ∧ x ≤ 6) : encode_guess c < 1296 := by
  obtain ⟨a, b, e, d, rfl⟩ := exists_four hlen
  obtain ⟨ha1, ha6⟩ := hval a (by simp)
  obtain ⟨hb1, hb6⟩ := hval b (by simp)
  obtain ⟨he1, he6⟩ := hval e (by simp)
  obtain ⟨hd1, hd6⟩ := hval d (by simp)
  have := encode_lt_ball (a - 1) (by omega) (b - 1) (by omega) (e - 1) (by omega)
    (d - 1) (by omega)
  have ha : a - 1 + 1 = a := by omega
  have hb : b - 1 + 1 = b := by omega
  have he : e - 1 + 1 = e := by omega
  have hd : d - 1 + 1 = d := by omega
  rwa [ha, hb, he, hd] at this

/-! ### Score helper lemmas -/

theorem black_sym : ∀ (g s : List Nat),
    (g.zip s).countP (fun p => p.1 == p.2) = (s.zip g).countP (fun p => p.1 == p.2)
  | [], s => by cases s <;> rfl
  | a :: g, [] => rfl
  | a :: g, b :: s => by
    simp only [List.zip_cons_cons, List.countP_cons, black_sym g s]
    by_cases h : a = b
    · simp [h]
    · have h2 : b ≠ a := fun hh => h hh.symm
      simp [h, h2]

theorem inter_sym (g s : List Nat) : counter_inter_total g s = counter_inter_total s g := by
  unfold counter_inter_total
  rw [Multiset.inter_comm]

theorem get_score_sym (g s : List Nat) : get_score g s = get_score s g := by
  unfold get_score
  rw [black_sym, inter_sym]

theorem inter_le_left_length (g s : List Nat) : counter_inter_total g s ≤ g.length := by
  have := Multiset.card_le_card (Multiset.inter_le_left (g : Multiset Nat) (s : Multiset Nat))
  simpa [counter_inter_total] using this

/-- The colors at the exactly-matched positions. -/
def matchedList (g s : List Nat) : List Nat :=
  ((g.zip s).filter fun p => p.1 == p.2).map Prod.fst

theorem matchedList_length (g s : List Nat) :
    (matchedList g s).length = (g.zip s).countP (fun p => p.1 == p.2) := by
  simp [matchedList, List.countP_eq_length_filter]

theorem countP_zip_fst (p : Nat → Bool) : ∀ (g s : List Nat),
    (g.zip s).countP (fun q => p q.1) ≤ g.countP p
  | [], _ => by simp
  | a :: g, [] => by simp
  | a :: g, b :: s => by
    simp only [List.zip_cons_cons, List.countP_cons]
    have := countP_zip_fst p g s
    by_cases h : p a <;> simp [h] <;> omega

theorem countP_zip_snd (p : Nat → Bool) : ∀ (g s : List Nat),
    (g.zip s).countP (fun q => p q.2) ≤ s.countP p
  | [], _ => by simp
  | a :: g, [] => by simp
  | a :: g, b :: s => by
    simp only [List.zip_cons_cons, List.countP_cons]
    have := countP_zip_snd p g s
    by_cases h : p b <;> simp [h] <;> omega

theorem count_matchedList (g s : List Nat) (c : Nat) :
    (matchedList g s).count c
      = (g.zip s).countP (fun q => (q.1 == q.2) && (q.1 == c)) := by
  simp only [matchedList, List.count, List.countP_map, List.countP_filter]
  congr 1
  funext q
  simp only [Function.comp]
  exact Bool.and_comm _ _

theorem count_matchedList_le_left (g s : List Nat) (c : Nat) :
    (matchedList g s).count c ≤ g.count c := by
  rw [count_matchedList]
  calc (g.zip s).countP (fun q => (q.1 == q.2) && (q.1 == c))
      ≤ (g.zip s).countP (fun q => q.1 == c) := by
        apply List.countP_mono_left
        intro x _ hx
        simp only [Bool.and_eq_true] at hx
        exact hx.2
    _ ≤ g.countP (fun x => x == c) := countP_zip_fst (fun x => x == c) g s
    _ = g.count c := rfl

theorem count_matchedList_le_right (g s : List Nat) (c : Nat) :
    (matchedList g s).count c ≤ s.count c := by
  rw [count_matchedList]
  calc (g.zip s).countP (fun q => (q.1 == q.2) && (q.1 == c))
      ≤ (g.zip s).countP (fun q => q.2 == c) := by
        apply List.countP_mono_left
        intro x _ hx
        simp only [Bool.and_eq_true, beq_iff_eq] at hx
        simp [← hx.1, hx.2]
    _ ≤ s.countP (fun x => x == c) := countP_zip_snd (fun x => x == c) g s
    _ = s.count c := rfl

theorem matchedList_coe_le (g s : List Nat) :
    (matchedList g s : Multiset Nat) ≤ (g : Multiset Nat) ∩ (s : Multiset Nat) := by
  apply Multiset.le_inter
  · rw [Multiset.le_iff_count]
    intro c
    simpa [Multiset.coe_count] using count_matchedList_le_left g s c
  · rw [Multiset.le_iff_count]
    intro c
    simpa [Multiset.coe_count] using count_matchedList_le_right g s c

theorem black_le_inter (g s : List Nat) :
    (g.zip s).countP (fun p => p.1 == p.2) ≤ counter_inter_total g s := by
  have := Multiset.card_le_card (matchedList_coe_le g s)
  simpa [counter_inter_total, matchedList_length] using this

theorem get_score_eq (g s : List Nat) :
    get_score g s = ((g.zip s).countP (fun p => p.1 == p.2),
      counter_inter_total g s - (g.zip s).countP (fun p => p.1 == p.2)) := rfl

theorem black_le_length (g s : List Nat) :
    (g.zip s).countP (fun p => p.1 == p.2) ≤ g.length := by
  calc (g.zip s).countP (fun p => p.1 == p.2) ≤ (g.zip s).length := List.countP_le_length _
    _ ≤ g.length := by rw [List.length_zip g s]; exact inf_le_left

theorem get_score_bounds (g s : List Nat) (hg : g.length = 4) :
    (get_score g s).1 ≤ 4 ∧ (get_score g s).1 + (get_score g s).2 ≤ 4 := by
  rw [get_score_eq]
  have h1 := black_le_length g s
  have h2 := black_le_inter g s
  have h3 := inter_le_left_length g s
  constructor
  · simpa [hg] using h1
  · simp only []
    omega

theorem countP_zip_self (c : List Nat) :
    (c.zip c).countP (fun p => p.1 == p.2) = c.length := by
  induction c with
  | nil => rfl
  | cons a c ih => simp [List.zip_cons_cons, List.countP_cons, ih]

theorem inter_self_length (c : List Nat) : counter_inter_total c c = c.length := by
  unfold counter_inter_total
  have h : (c : Multiset Nat) ∩ (c : Multiset Nat) = (c : Multiset Nat) := by
    ext x
    simp [Multiset.count_inter]
  rw [h, Multiset.coe_card]

theorem get_score_diag (c : List Nat) : get_score c c = (c.length, 0) := by
  rw [get_score_eq, countP_zip_self, inter_self_length]
  simp

theorem eq_of_zip_forall_eq : ∀ (g s : List Nat), g.length = s.length →
    (∀ p ∈ g.zip s, p.1 = p.2) → g = s
  | [], [], _, _ => rfl
  | a :: g, b :: s, hl, hp => by
    have hab : a = b := hp (a, b) (by simp [List.zip_cons_cons])
    have : g = s := eq_of_zip_forall_eq g s (by simpa using hl)
      (fun p hpmem => hp p (by simp [List.zip_cons_cons, hpmem]))
    rw [hab, this]

theorem get_score_win_iff (g s : List Nat) (hg : g.length = 4) (hs : s.length = 4) :
    get_score g s = (4, 0) ↔ g = s := by
  constructor
  · intro h
    rw [get_score_eq] at h
    have hblack : (g.zip s).countP (fun p => p.1 == p.2) = 4 := congrArg Prod.fst h
    have hzlen : (g.zip s).length = 4 := by
      rw [List.length_zip, hg, hs]; rfl
    have hall : ∀ p ∈ g.zip s, (fun p : Nat × Nat => p.1 == p.2) p = true := by
      apply List.countP_eq_length.mp
      rw [hblack, hzlen]
    apply eq_of_zip_forall_eq g s (by rw [hg, hs])
    intro p hp
    simpa using hall p hp
  · intro h
    rw [h, get_score_diag, hs]

/-! ### Counting a multiset of colors 1..6 color by color -/

theorem card_eq_sum_counts (M : Multiset Nat)
    (h : ∀ x ∈ M, 1 ≤ x ∧ x ≤ 6) :
    Multiset.card M
      = M.count 1 + M.count 2 + M.count 3 + M.count 4 + M.count 5 + M.count 6 := by
  induction M using Multiset.induction_on with
  | empty => simp
  | cons a M ih =>
    have ha := h a (Multiset.mem_cons_self a M)
    have ihM := ih fun x hx => h x (Multiset.mem_cons_of_mem hx)
    simp only [Multiset.card_cons, Multiset.count_cons, ihM]
    have : a = 1 ∨ a = 2 ∨ a = 3 ∨ a = 4 ∨ a = 5 ∨ a = 6 := by omega
    rcases this with rfl | rfl | rfl | rfl | rfl | rfl <;> simp <;> omega

theorem inter_eq_sum_min (g s : List Nat) (hg : ∀ x ∈ g, 1 ≤ x ∧ x ≤ 6) :
    counter_inter_total g s
      = min (g.count 1) (s.count 1) + min (g.count 2) (s.count 2)
        + min (g.count 3) (s.count 3) + min (g.count 4) (s.count 4)
        + min (g.count 5) (s.count 5) + min (g.count 6) (s.count 6) := by
  unfold counter_inter_total
  rw [card_eq_sum_counts]
  · simp [Multiset.count_inter, Multiset.coe_count]
  · intro x hx
    have : x ∈ (g : Multiset Nat) :=
      Multiset.mem_of_le (Multiset.inter_le_left _ _) hx
    exact hg x (by simpa using this)

theorem black_eq_sum_matched (g s : List Nat) (hg : ∀ x ∈ g, 1 ≤ x ∧ x ≤ 6) :
    (g.zip s).countP (fun p => p.1 == p.2)
      = (matchedList g s).count 1 + (matchedList g s).count 2 + (matchedList g s).count 3
        + (matchedList g s).count 4 + (matchedList g s).count 5
        + (matchedList g s).count 6 := by
  have hmem : ∀ x ∈ (matchedList g s : Multiset Nat), 1 ≤ x ∧ x ≤ 6 := by
    intro x hx
    simp only [Multiset.quot_mk_to_coe, Multiset.mem_coe] at hx
    have hxg : x ∈ g := by
      have hc : 1 ≤ (matchedList g s).count x := List.count_pos_iff.mpr hx
      have := count_matchedList_le_left g s x
      exact List.count_pos_iff.mp (by omega)
    exact hg x hxg
  have := card_eq_sum_counts (matchedList g s : Multiset Nat) hmem
  simpa [Multiset.coe_count, matchedList_length] using this

/-! ### Score table lemmas -/

theorem starting_possibilities_eq :
    starting_possibilities = (List.range 1296).map decode_guess := by
  decide!

theorem starting_possibilities_getD :
    ∀ i, i < 1296 → starting_possibilities.getD i [] = decode_guess i := by
  intro i hi
  rw [starting_possibilities_eq, List.getD_eq_getElem?_getD, List.getElem?_map,
    List.getElem?_range hi]
  rfl

theorem scores_unfold (i j : Nat) :
    scores i j = encode_score (get_score (starting_possibilities.getD i [])
      (starting_possibilities.getD j [])) := by
  unfold scores
  split
  · rw [get_score_sym]
  · rfl

theorem scores_entry (i j : Nat) (hi : i < 1296) (hj : j < 1296) :
    scores i j = encode_score (get_score (decode_guess i) (decode_guess j)) := by
  rw [scores_unfold, starting_possibilities_getD i hi, starting_possibilities_getD j hj]

theorem scores_sym (i j : Nat) : scores i j = scores j i := by
  rw [scores_unfold, scores_unfold, get_score_sym]

theorem scores_diag (i : Nat) (hi : i < 1296) : scores i i = WIN := by
  rw [scores_entry i i hi hi, get_score_diag, decode_guess_length]
  rfl

theorem scores_win_iff (i j : Nat) (hi : i < 1296) (hj : j < 1296) :
    scores i j = WIN ↔ i = j := by
  constructor
  · intro h
    rw [scores_entry i j hi hj] at h
    have hb := get_score_bounds (decode_guess i) (decode_guess j) (decode_guess_length i)
    have henc : get_score (decode_guess i) (decode_guess j) = (4, 0) := by
      have h64 : 16 * (get_score (decode_guess i) (decode_guess j)).1
          + (get_score (decode_guess i) (decode_guess j)).2 = 64 := h
      have : (get_score (decode_guess i) (decode_guess j)).1 = 4 ∧
          (get_score (decode_guess i) (decode_guess j)).2 = 0 := by omega
      calc get_score (decode_guess i) (decode_guess j)
          = ((get_score (decode_guess i) (decode_guess j)).1,
             (get_score (decode_guess i) (decode_guess j)).2) := rfl
        _ = (4, 0) := by rw [this.1, this.2]
    have hdec : decode_guess i = decode_guess j :=
      (get_score_win_iff _ _ (decode_guess_length i) (decode_guess_length j)).mp henc
    have := encode_decode_ball i hi
    rw [hdec, encode_decode_ball j hj] at this
    omega
  · intro h
    rw [h]
    exact scores_diag j hj

/-! ### Maximum and tally lemmas -/

theorem foldl_max_facts : ∀ (L : List Nat) (x : Nat),
    x ≤ L.foldl max x ∧ (∀ y ∈ L, y ≤ L.foldl max x) ∧
      (L.foldl max x = x ∨ L.foldl max x ∈ L)
  | [], x => by simp
  | a :: L, x => by
    obtain ⟨h1, h2, h3⟩ := foldl_max_facts L (max x a)
    refine ⟨le_trans (Nat.le_max_left x a) h1, ?_, ?_⟩
    · intro y hy
      rcases List.mem_cons.mp hy with rfl | hy
      · exact le_trans (Nat.le_max_right x y) h1
      · exact h2 y hy
    · rcases h3 with h3 | h3
      · rcases max_choice x a with hc | hc
        · left; rw [List.foldl_cons, h3, hc]
        · right; rw [List.foldl_cons, h3, hc]; exact List.mem_cons_self a L
      · right; exact List.mem_cons_of_mem a h3

theorem max?_spec (L : List Nat) (hL : L ≠ []) :
    ∃ m, L.max? = some m ∧ m ∈ L ∧ ∀ y ∈ L, y ≤ m := by
  match L, hL with
  | x :: xs, _ =>
    obtain ⟨h1, h2, h3⟩ := foldl_max_facts xs x
    refine ⟨xs.foldl max x, List.max?_cons', ?_, ?_⟩
    · rcases h3 with h3 | h3
      · rw [h3]; exact List.mem_cons_self x xs
      · exact List.mem_cons_of_mem x h3
    · intro y hy
      rcases List.mem_cons.mp hy with rfl | hy
      · exact h1
      · exact h2 y hy

theorem bumpCount_keys (x : Nat) : ∀ (acc : List (Nat × Nat)),
    (bumpCount acc x).map Prod.fst =
      if x ∈ acc.map Prod.fst then acc.map Prod.fst else acc.map Prod.fst ++ [x]
  | [] => by simp [bumpCount]
  | (k, v) :: rest => by
    by_cases hkx : k = x
    · subst hkx
      simp [bumpCount]
    · have := bumpCount_keys x rest
      by_cases hmem : x ∈ rest.map Prod.fst <;>
        simp [bumpCount, hkx, hmem, Ne.symm hkx, this]

theorem bumpCount_mem_ne (x k v : Nat) (hkx : k ≠ x) : ∀ (acc : List (Nat × Nat)),
    ((k, v) ∈ bumpCount acc x ↔ (k, v) ∈ acc)
  | [] => by simp [bumpCount, Prod.ext_iff, hkx]
  | (k1, v1) :: rest => by
    simp only [bumpCount]
    by_cases h1x : k1 = x
    · rw [if_pos h1x]
      have hk : k ≠ k1 := fun h => hkx (h.trans h1x)
      simp [List.mem_cons, Prod.mk.injEq, hk]
    · rw [if_neg h1x]
      simp only [List.mem_cons]
      rw [bumpCount_mem_ne x k v hkx rest]

theorem bumpCount_mem_inc (x w : Nat) : ∀ (acc : List (Nat × Nat)),
    ((acc.map Prod.fst).Nodup) → (x, w) ∈ acc → (x, w + 1) ∈ bumpCount acc x
  | [], _, hm => absurd hm (List.not_mem_nil _)
  | (k1, v1) :: rest, hnd, hm => by
    have hk1 : k1 ∉ rest.map Prod.fst := by
      simp only [List.map_cons, List.nodup_cons] at hnd
      exact hnd.1
    have hndr : (rest.map Prod.fst).Nodup := by
      simp only [List.map_cons, List.nodup_cons] at hnd
      exact hnd.2
    simp only [bumpCount]
    by_cases h1x : k1 = x
    · rw [if_pos h1x]
      have hw : w = v1 := by
        rcases List.mem_cons.mp hm with heq | hm2
        · exact (Prod.mk.injEq _ _ _ _ ▸ heq).2
        · exact absurd (List.mem_map.mpr ⟨(x, w), hm2, h1x.symm⟩) hk1
      subst hw
      exact List.mem_cons.mpr (Or.inl (by rw [h1x]))
    · rw [if_neg h1x]
      have hm2 : (x, w) ∈ rest := by
        rcases List.mem_cons.mp hm with heq | hm2
        · exact absurd ((Prod.mk.injEq _ _ _ _ ▸ heq).1.symm) h1x
        · exact hm2
      exact List.mem_cons_of_mem _ (bumpCount_mem_inc x w rest hndr hm2)

theorem bumpCount_mem_new (x : Nat) : ∀ (acc : List (Nat × Nat)),
    x ∉ acc.map Prod.fst → (x, 1) ∈ bumpCount acc x
  | [], _ => by simp [bumpCount]
  | (k1, v1) :: rest, hx => by
    have h1x : k1 ≠ x := by
      intro h
      exact hx (by simp [h])
    have hxr : x ∉ rest.map Prod.fst := by
      intro h
      exact hx (by simp [h])
    simp only [bumpCount]
    rw [if_neg h1x]
    exact List.mem_cons_of_mem _ (bumpCount_mem_new x rest hxr)

theorem bumpCount_mem_fwd (x k v : Nat) : ∀ (acc : List (Nat × Nat)),
    ((acc.map Prod.fst).Nodup) → (k, v) ∈ bumpCount acc x →
    (k ≠ x ∧ (k, v) ∈ acc) ∨
      (k = x ∧ ((∃ v0, (x, v0) ∈ acc ∧ v = v0 + 1) ∨ (x ∉ acc.map Prod.fst ∧ v = 1)))
  | [], _, hm => by
    simp only [bumpCount, List.mem_singleton, Prod.mk.injEq] at hm
    exact Or.inr ⟨hm.1, Or.inr ⟨by simp, hm.2⟩⟩
  | (k1, v1) :: rest, hnd, hm => by
    have hk1 : k1 ∉ rest.map Prod.fst := by
      simp only [List.map_cons, List.nodup_cons] at hnd
      exact hnd.1
    have hndr : (rest.map Prod.fst).Nodup := by
      simp only [List.map_cons, List.nodup_cons] at hnd
      exact hnd.2
    simp only [bumpCount] at hm
    by_cases h1x : k1 = x
    · rw [if_pos h1x] at hm
      rcases List.mem_cons.mp hm with heq | hm2
      · have hk : k = k1 := (Prod.mk.injEq _ _ _ _ ▸ heq).1
        have hv : v = v1 + 1 := (Prod.mk.injEq _ _ _ _ ▸ heq).2
        refine Or.inr ⟨hk.trans h1x, Or.inl ⟨v1, ?_, hv⟩⟩
        exact List.mem_cons.mpr (Or.inl (by rw [h1x]))
      · have hkx : k ≠ x := by
          intro h
          apply hk1
          rw [h1x]
          exact List.mem_map.mpr ⟨(k, v), hm2, h⟩
        exact Or.inl ⟨hkx, List.mem_cons_of_mem _ hm2⟩
    · rw [if_neg h1x] at hm
      rcases List.mem_cons.mp hm with heq | hm2
      · have hk : k = k1 := (Prod.mk.injEq _ _ _ _ ▸ heq).1
        have hkx : k ≠ x := fun h => h1x (hk ▸ h)
        exact Or.inl ⟨hkx, List.mem_cons.mpr (Or.inl heq)⟩
      · rcases bumpCount_mem_fwd x k v rest hndr hm2 with ⟨hkx, hmem⟩ | ⟨hkx, hrest⟩
        · exact Or.inl ⟨hkx, List.mem_cons_of_mem _ hmem⟩
        · rcases hrest with ⟨v0, hv0, hv⟩ | ⟨hnm, hv⟩
          · exact Or.inr ⟨hkx, Or.inl ⟨v0, List.mem_cons_of_mem _ hv0, hv⟩⟩
          · refine Or.inr ⟨hkx, Or.inr ⟨?_, hv⟩⟩
            simp only [List.map_cons, List.mem_cons]
            rintro (hh | hh)
            · exact h1x hh.symm
            · exact hnm hh

theorem countValues_invariant : ∀ (xs seen : List Nat) (acc : List (Nat × Nat)),
    ((acc.map Prod.fst).Nodup) →
    (∀ k v, (k, v) ∈ acc → k ∈ seen ∧ v = seen.count k) →
    (∀ k, k ∈ seen → (k, seen.count k) ∈ acc) →
    (∀ k v, (k, v) ∈ xs.foldl bumpCount acc → k ∈ seen ++ xs ∧ v = (seen ++ xs).count k) ∧
      (∀ k, k ∈ seen ++ xs → (k, (seen ++ xs).count k) ∈ xs.foldl bumpCount acc)
  | [], seen, acc, _, h2, h3 => by
    simpa using ⟨h2, h3⟩
  | x :: xs, seen, acc, h1, h2, h3 => by
    have hkeys := bumpCount_keys x acc
    have hkeymem : ∀ k, k ∈ acc.map Prod.fst → k ∈ seen := by
      intro k hk
      obtain ⟨⟨k0, v0⟩, hm, hfst⟩ := List.mem_map.mp hk
      exact hfst ▸ (h2 k0 v0 hm).1
    have h1' : ((bumpCount acc x).map Prod.fst).Nodup := by
      rw [hkeys]
      by_cases hx : x ∈ acc.map Prod.fst
      · rw [if_pos hx]; exact h1
      · rw [if_neg hx]
        simp only [List.nodup_append, List.nodup_cons, List.not_mem_nil, not_false_iff,
          List.nodup_nil, and_true, true_and]
        constructor
        · exact h1
        · intro a ha hmem
          rcases List.mem_singleton.mp hmem with rfl
          exact hx ha
    have h2' : ∀ k v, (k, v) ∈ bumpCount acc x → k ∈ seen ++ [x] ∧ v = (seen ++ [x]).count k := by
      intro k v hm
      rcases bumpCount_mem_fwd x k v acc h1 hm with ⟨hkx, hmem⟩ | ⟨hkx, hrest⟩
      · obtain ⟨hks, hv⟩ := h2 k v hmem
        constructor
        · exact List.mem_append.mpr (Or.inl hks)
        · rw [List.count_append, hv]
          have : List.count k [x] = 0 := by
            simp [List.count_singleton', Ne.symm hkx]
          omega
      · subst hkx
        rcases hrest with ⟨v0, hv0, hv⟩ | ⟨hnm, hv⟩
        · obtain ⟨hks, hveq⟩ := h2 k v0 hv0
          constructor
          · exact List.mem_append.mpr (Or.inl hks)
          · rw [List.count_append]
            have hone : List.count k [k] = 1 := by simp
            omega
        · have hks : k ∉ seen := by
            intro hk
            exact hnm (List.mem_map.mpr ⟨(k, seen.count k), h3 k hk, rfl⟩)
          constructor
          · exact List.mem_append.mpr (Or.inr (List.mem_singleton.mpr rfl))
          · rw [List.count_append]
            rw [List.count_eq_zero.mpr hks]
            have hone : List.count k [k] = 1 := by simp
            omega
    have h3' : ∀ k, k ∈ seen ++ [x] → (k, (seen ++ [x]).count k) ∈ bumpCount acc x := by
      intro k hk
      by_cases hkx : k = x
      · subst hkx
        by_cases hks : k ∈ seen
        · have := bumpCount_mem_inc k (seen.count k) acc h1 (h3 k hks)
          have hc : (seen ++ [k]).count k = seen.count k + 1 := by
            rw [List.count_append]
            have hone : List.count k [k] = 1 := by simp
            omega
          rwa [hc]
        · have hnm : k ∉ acc.map Prod.fst := fun hmem => hks (hkeymem k hmem)
          have := bumpCount_mem_new k acc hnm
          have hc : (seen ++ [k]).count k = 1 := by
            rw [List.count_append, List.count_eq_zero.mpr hks]
            have hone : List.count k [k] = 1 := by simp
            omega
          rwa [hc]
      · have hks : k ∈ seen := by
          rcases List.mem_append.mp hk with h | h
          · exact h
          · exact absurd (List.mem_singleton.mp h) hkx
        have hc : (seen ++ [x]).count k = seen.count k := by
          rw [List.count_append]
          have : List.count k [x] = 0 := by
            simp [List.count_singleton', Ne.symm hkx]
          omega
        rw [hc]
        exact (bumpCount_mem_ne x k (seen.count k) hkx acc).mpr (h3 k hks)
    have main := countValues_invariant xs (seen ++ [x]) (bumpCount acc x) h1' h2' h3'
    simpa [List.append_assoc] using main

theorem countValues_mem (xs : List Nat) (k v : Nat) (h : (k, v) ∈ countValues xs) :
    k ∈ xs ∧ v = xs.count k := by
  have hmain := (countValues_invariant xs [] [] (by simp) (by simp) (by simp)).1 k v
  simp only [List.nil_append] at hmain
  exact hmain h

theorem countValues_mem_of (xs : List Nat) (k : Nat) (h : k ∈ xs) :
    (k, xs.count k) ∈ countValues xs := by
  have hmain := (countValues_invariant xs [] [] (by simp) (by simp) (by simp)).2 k
  simp only [List.nil_append] at hmain
  exact hmain h

theorem countValues_ne_nil (xs : List Nat) (h : xs ≠ []) : countValues xs ≠ [] := by
  match xs, h with
  | x :: xs, _ =>
    have := countValues_mem_of (x :: xs) x (List.mem_cons_self x xs)
    exact List.ne_nil_of_mem this

theorem guess_cost_eq (remaining : List Nat) (g : Nat) (h : remaining ≠ []) :
    guess_cost remaining g = some (largest_group_size remaining g) := by
  have hxs : remaining.map (fun r => scores g r) ≠ [] := by
    intro h0
    exact h (List.map_eq_nil_iff.mp h0)
  have hV : (countValues (remaining.map fun r => scores g r)).map Prod.snd ≠ [] := by
    intro h0
    exact countValues_ne_nil _ hxs (List.map_eq_nil_iff.mp h0)
  obtain ⟨m, hm, hmem, hbound⟩ := max?_spec _ hV
  obtain ⟨h0le, hWmem, hWattain⟩ :=
    foldl_max_facts (((remaining.map fun r => scores g r).dedup).map fun s =>
      ((remaining.map fun r => scores g r).count s)) 0
  have hle1 : m ≤ largest_group_size remaining g := by
    obtain ⟨⟨k, v⟩, hkv, hsnd⟩ := List.mem_map.mp hmem
    obtain ⟨hk, hv⟩ := countValues_mem _ _ _ hkv
    have hkd : k ∈ (remaining.map fun r => scores g r).dedup := List.mem_dedup.mpr hk
    have : (remaining.map fun r => scores g r).count k ∈
        ((remaining.map fun r => scores g r).dedup).map fun s =>
          ((remaining.map fun r => scores g r).count s) :=
      List.mem_map.mpr ⟨k, hkd, rfl⟩
    have := hWmem _ this
    have hveq : v = m := hsnd
    rw [largest_group_size]
    omega
  have hle2 : largest_group_size remaining g ≤ m := by
    rw [largest_group_size]
    rcases hWattain with heq | hmem2
    · omega
    · obtain ⟨s, hs, hcount⟩ := List.mem_map.mp hmem2
      have hsx : s ∈ remaining.map fun r => scores g r := List.mem_dedup.mp hs
      have hpair := countValues_mem_of _ s hsx
      have hvmem : (remaining.map fun r => scores g r).count s ∈
          (countValues (remaining.map fun r => scores g r)).map Prod.snd :=
        List.mem_map.mpr ⟨(s, (remaining.map fun r => scores g r).count s), hpair, rfl⟩
      have := hbound _ hvmem
      omega
  have : m = largest_group_size remaining g := le_antisymm hle1 hle2
  rw [guess_cost, hm, this]

theorem count_le_largest_group (remaining : List Nat) (g s : Nat)
    (h : s ∈ remaining.map fun r => scores g r) :
    (remaining.map fun r => scores g r).count s ≤ largest_group_size remaining g := by
  obtain ⟨h0le, hWmem, hWattain⟩ :=
    foldl_max_facts (((remaining.map fun r => scores g r).dedup).map fun t =>
      ((remaining.map fun r => scores g r).count t)) 0
  have : (remaining.map fun r => scores g r).count s ∈
      ((remaining.map fun r => scores g r).dedup).map fun t =>
        ((remaining.map fun r => scores g r).count t) :=
    List.mem_map.mpr ⟨s, List.mem_dedup.mpr h, rfl⟩
  exact hWmem _ this

theorem largest_group_le (remaining : List Nat) (g B : Nat)
    (hB : ∀ s ∈ remaining.map fun r => scores g r,
      (remaining.map fun r => scores g r).count s ≤ B) :
    largest_group_size remaining g ≤ B := by
  obtain ⟨h0le, hWmem, hWattain⟩ :=
    foldl_max_facts (((remaining.map fun r => scores g r).dedup).map fun t =>
      ((remaining.map fun r => scores g r).count t)) 0
  rw [largest_group_size]
  rcases hWattain with heq | hmem2
  · omega
  · obtain ⟨s, hs, hcount⟩ := List.mem_map.mp hmem2
    have := hB s (List.mem_dedup.mp hs)
    omega

theorem largest_group_singleton (r g : Nat) : largest_group_size [r] g = 1 := by
  simp [largest_group_size]

/-! ### The guess-selection loop -/

theorem contains_iff_mem (l : List Nat) (a : Nat) : l.contains a = true ↔ a ∈ l :=
  List.elem_iff

theorem findBestAux_none_eq (remaining : List Nat) (g : Nat) :
    findBestAux remaining (none, none) g
      = if optLT (guess_cost remaining g) none then (guess_cost remaining g, some g)
        else (none, none) := rfl

theorem findBestAux_some_eq (remaining : List Nat) (g b m : Nat) :
    findBestAux remaining (some m, some b) g
      = if optLT (guess_cost remaining g) (some m) then (guess_cost remaining g, some g)
        else if (guess_cost remaining g == some m) && !(remaining.contains b)
            && remaining.contains g then (some m, some g)
          else (some m, some b) := rfl

theorem findBestAux_first (remaining : List Nat) (g : Nat) (h : remaining ≠ []) :
    findBestAux remaining (none, none) g
      = (some (largest_group_size remaining g), some g) := by
  rw [findBestAux_none_eq, guess_cost_eq remaining g h]
  rfl

theorem findBestAux_lt (remaining : List Nat) (g b m : Nat) (h : remaining ≠ [])
    (hlt : largest_group_size remaining g < m) :
    findBestAux remaining (some m, some b) g
      = (some (largest_group_size remaining g), some g) := by
  rw [findBestAux_some_eq, guess_cost_eq remaining g h]
  have h1 : optLT (some (largest_group_size remaining g)) (some m) = true := by
    simp [optLT, hlt]
  rw [h1]
  simp

theorem findBestAux_tie (remaining : List Nat) (g b m : Nat) (h : remaining ≠ [])
    (heq : largest_group_size remaining g = m) :
    findBestAux remaining (some m, some b) g
      = if b ∉ remaining ∧ g ∈ remaining then (some m, some g)
        else (some m, some b) := by
  rw [findBestAux_some_eq, guess_cost_eq remaining g h, heq]
  have h1 : optLT (some m) (some m) = false := by simp [optLT]
  rw [h1]
  have h2 : ((some m : Option Nat) == some m) = true := by simp
  rw [h2]
  rcases hcb : remaining.contains b with _ | _
  · have hbmem : b ∉ remaining := by
      intro hmem
      rw [(contains_iff_mem _ _).mpr hmem] at hcb
      cases hcb
    rcases hcg : remaining.contains g with _ | _
    · have hgmem : g ∉ remaining := by
        intro hmem
        rw [(contains_iff_mem _ _).mpr hmem] at hcg
        cases hcg
      have hnot : ¬(b ∉ remaining ∧ g ∈ remaining) := fun hand => hgmem hand.2
      rw [if_neg hnot]
      rfl
    · have hgmem : g ∈ remaining := (contains_iff_mem _ _).mp hcg
      rw [if_pos (show b ∉ remaining ∧ g ∈ remaining from ⟨hbmem, hgmem⟩)]
      rfl
  · have hbmem : b ∈ remaining := (contains_iff_mem _ _).mp hcb
    have hnot : ¬(b ∉ remaining ∧ g ∈ remaining) := fun hand => hand.1 hbmem
    rw [if_neg hnot]
    rfl

theorem findBestAux_gt (remaining : List Nat) (g b m : Nat) (h : remaining ≠ [])
    (hgt : m < largest_group_size remaining g) :
    findBestAux remaining (some m, some b) g = (some m, some b) := by
  rw [findBestAux_some_eq, guess_cost_eq remaining g h]
  have h1 : optLT (some (largest_group_size remaining g)) (some m) = false := by
    simp [optLT]
    omega
  rw [h1]
  have h2 : ((some (largest_group_size remaining g) : Option Nat) == some m) = false := by
    simp
    omega
  rw [h2]
  simp

theorem find_best_invariant (remaining : List Nat) (h : remaining ≠ []) :
    ∀ (gs processed : List Nat) (m b : Nat),
      b ∈ processed →
      largest_group_size remaining b = m →
      (∀ g ∈ processed, m ≤ largest_group_size remaining g) →
      ((∃ g ∈ processed, largest_group_size remaining g = m ∧ g ∈ remaining) →
        b ∈ remaining) →
      ∃ m2 b2, gs.foldl (findBestAux remaining) (some m, some b) = (some m2, some b2) ∧
        b2 ∈ processed ++ gs ∧ largest_group_size remaining b2 = m2 ∧
        (∀ g ∈ processed ++ gs, m2 ≤ largest_group_size remaining g) ∧
        ((∃ g ∈ processed ++ gs, largest_group_size remaining g = m2 ∧ g ∈ remaining) →
          b2 ∈ remaining)
  | [], processed, m, b, hb, hnb, hbound, htie => by
    refine ⟨m, b, rfl, ?_, hnb, ?_, ?_⟩
    · simpa using hb
    · intro g hg
      exact hbound g (by simpa using hg)
    · intro hex
      apply htie
      obtain ⟨g2, hg2, rest⟩ := hex
      exact ⟨g2, by simpa using hg2, rest⟩
  | g :: gs, processed, m, b, hb, hnb, hbound, htie => by
    rcases Nat.lt_trichotomy (largest_group_size remaining g) m with hlt | heq | hgt
    · rw [List.foldl_cons, findBestAux_lt remaining g b m h hlt]
      have main := find_best_invariant remaining h gs (processed ++ [g])
        (largest_group_size remaining g) g (by simp)
        rfl
        (by
          intro g2 hg2
          rcases List.mem_append.mp hg2 with h2 | h2
          · have := hbound g2 h2
            omega
          · rcases List.mem_singleton.mp h2 with rfl
            exact le_refl _)
        (by
          intro hex
          obtain ⟨g2, hg2, hn2, hg2mem⟩ := hex
          rcases List.mem_append.mp hg2 with h2 | h2
          · have := hbound g2 h2
            omega
          · rcases List.mem_singleton.mp h2 with rfl
            exact hg2mem)
      obtain ⟨m2, b2, heq2, hmem2, hn2, hbound2, htie2⟩ := main
      refine ⟨m2, b2, heq2, ?_, hn2, ?_, ?_⟩
      · simpa [List.append_assoc] using hmem2
      · intro g2 hg2
        apply hbound2
        simpa [List.append_assoc] using hg2
      · intro hex
        apply htie2
        obtain ⟨g2, hg2, rest⟩ := hex
        exact ⟨g2, by simpa [List.append_assoc] using hg2, rest⟩
    · rw [List.foldl_cons, findBestAux_tie remaining g b m h heq]
      by_cases hcase : b ∉ remaining ∧ g ∈ remaining
      · rw [if_pos hcase]
        have main := find_best_invariant remaining h gs (processed ++ [g]) m g (by simp)
          heq
          (by
            intro g2 hg2
            rcases List.mem_append.mp hg2 with h2 | h2
            · exact hbound g2 h2
            · rcases List.mem_singleton.mp h2 with rfl
              omega)
          (fun _ => hcase.2)
        obtain ⟨m2, b2, heq2, hmem2, hn2, hbound2, htie2⟩ := main
        refine ⟨m2, b2, heq2, ?_, hn2, ?_, ?_⟩
        · simpa [List.append_assoc] using hmem2
        · intro g2 hg2
          apply hbound2
          simpa [List.append_assoc] using hg2
        · intro hex
          apply htie2
          obtain ⟨g2, hg2, rest⟩ := hex
          exact ⟨g2, by simpa [List.append_assoc] using hg2, rest⟩
      · rw [if_neg hcase]
        have main := find_best_invariant remaining h gs (processed ++ [g]) m b
          (List.mem_append.mpr (Or.inl hb))
          hnb
          (by
            intro g2 hg2
            rcases List.mem_append.mp hg2 with h2 | h2
            · exact hbound g2 h2
            · rcases List.mem_singleton.mp h2 with rfl
              omega)
          (by
            intro hex
            obtain ⟨g2, hg2, hn2, hg2mem⟩ := hex
            rcases List.mem_append.mp hg2 with h2 | h2
            · exact htie ⟨g2, h2, hn2, hg2mem⟩
            · rcases List.mem_singleton.mp h2 with rfl
              by_contra hbnot
              exact hcase ⟨hbnot, hg2mem⟩)
        obtain ⟨m2, b2, heq2, hmem2, hn2, hbound2, htie2⟩ := main
        refine ⟨m2, b2, heq2, ?_, hn2, ?_, ?_⟩
        · simpa [List.append_assoc] using hmem2
        · intro g2 hg2
          apply hbound2
          simpa [List.append_assoc] using hg2
        · intro hex
          apply htie2
          obtain ⟨g2, hg2, rest⟩ := hex
          exact ⟨g2, by simpa [List.append_assoc] using hg2, rest⟩
    · rw [List.foldl_cons, findBestAux_gt remaining g b m h hgt]
      have main := find_best_invariant remaining h gs (processed ++ [g]) m b
        (List.mem_append.mpr (Or.inl hb))
        hnb
        (by
          intro g2 hg2
          rcases List.mem_append.mp hg2 with h2 | h2
          · exact hbound g2 h2
          · rcases List.mem_singleton.mp h2 with rfl
            omega)
        (by
          intro hex
          obtain ⟨g2, hg2, hn2, hg2mem⟩ := hex
          rcases List.mem_append.mp hg2 with h2 | h2
          · exact htie ⟨g2, h2, hn2, hg2mem⟩
          · rcases List.mem_singleton.mp h2 with rfl
            omega)
      obtain ⟨m2, b2, heq2, hmem2, hn2, hbound2, htie2⟩ := main
      refine ⟨m2, b2, heq2, ?_, hn2, ?_, ?_⟩
      · simpa [List.append_assoc] using hmem2
      · intro g2 hg2
        apply hbound2
        simpa [List.append_assoc] using hg2
      · intro hex
        apply htie2
        obtain ⟨g2, hg2, rest⟩ := hex
        exact ⟨g2, by simpa [List.append_assoc] using hg2, rest⟩

theorem find_best_spec (guesses remaining : List Nat) (hrem : remaining ≠ [])
    (hg : guesses ≠ []) :
    ∃ m b, find_best_guess guesses remaining = some b ∧ b ∈ guesses ∧
      largest_group_size remaining b = m ∧
      (∀ g ∈ guesses, m ≤ largest_group_size remaining g) ∧
      ((∃ g ∈ guesses, largest_group_size remaining g = m ∧ g ∈ remaining) →
        b ∈ remaining) := by
  match guesses, hg with
  | g0 :: gs, _ =>
    have hstep : findBestAux remaining (none, none) g0
        = (some (largest_group_size remaining g0), some g0) :=
      findBestAux_first remaining g0 hrem
    have main := find_best_invariant remaining hrem gs [g0]
      (largest_group_size remaining g0) g0 (by simp) rfl
      (by
        intro g2 hg2
        rcases List.mem_singleton.mp hg2 with rfl
        exact le_refl _)
      (by
        intro hex
        obtain ⟨g2, hg2, hn2, hg2mem⟩ := hex
        rcases List.mem_singleton.mp hg2 with rfl
        exact hg2mem)
    obtain ⟨m2, b2, heq2, hmem2, hn2, hbound2, htie2⟩ := main
    refine ⟨m2, b2, ?_, ?_, hn2, ?_, ?_⟩
    · rw [find_best_guess, List.foldl_cons, hstep, heq2]
    · simpa using hmem2
    · intro g2 hg2
      apply hbound2
      simpa using hg2
    · intro hex
      apply htie2
      obtain ⟨g2, hg2, rest⟩ := hex
      exact ⟨g2, by simpa using hg2, rest⟩

/-! ### The partition loop -/

theorem addToGroup_mem_ne (s t x : Nat) (hts : t ≠ s) :
    ∀ (acc : List (Nat × List Nat)) (grp : List Nat),
      ((t, grp) ∈ addToGroup acc s x ↔ (t, grp) ∈ acc)
  | [], grp => by simp [addToGroup, Prod.ext_iff, hts]
  | (k1, g1) :: rest, grp => by
    simp only [addToGroup]
    by_cases h1s : k1 = s
    · rw [if_pos h1s]
      have hk : t ≠ k1 := fun hh => hts (hh.trans h1s)
      simp [List.mem_cons, Prod.mk.injEq, hk]
    · rw [if_neg h1s]
      simp only [List.mem_cons]
      rw [addToGroup_mem_ne s t x hts rest grp]

theorem addToGroup_keys (s x : Nat) : ∀ (acc : List (Nat × List Nat)),
    (addToGroup acc s x).map Prod.fst =
      if s ∈ acc.map Prod.fst then acc.map Prod.fst else acc.map Prod.fst ++ [s]
  | [] => by simp [addToGroup]
  | (k1, g1) :: rest => by
    by_cases h1s : k1 = s
    · subst h1s
      simp [addToGroup]
    · have := addToGroup_keys s x rest
      by_cases hmem : s ∈ rest.map Prod.fst <;>
        simp [addToGroup, h1s, hmem, Ne.symm h1s, this]

theorem addToGroup_mem_app (s x : Nat) :
    ∀ (acc : List (Nat × List Nat)) (g0 : List Nat),
      ((acc.map Prod.fst).Nodup) → (s, g0) ∈ acc → (s, g0 ++ [x]) ∈ addToGroup acc s x
  | [], g0, _, hm => absurd hm (List.not_mem_nil _)
  | (k1, g1) :: rest, g0, hnd, hm => by
    have hk1 : k1 ∉ rest.map Prod.fst := by
      simp only [List.map_cons, List.nodup_cons] at hnd
      exact hnd.1
    have hndr : (rest.map Prod.fst).Nodup := by
      simp only [List.map_cons, List.nodup_cons] at hnd
      exact hnd.2
    simp only [addToGroup]
    by_cases h1s : k1 = s
    · rw [if_pos h1s]
      have hg : g0 = g1 := by
        rcases List.mem_cons.mp hm with heq | hm2
        · exact (Prod.mk.injEq _ _ _ _ ▸ heq).2
        · exact absurd (List.mem_map.mpr ⟨(s, g0), hm2, h1s.symm⟩) hk1
      subst hg
      exact List.mem_cons.mpr (Or.inl (by rw [h1s]))
    · rw [if_neg h1s]
      have hm2 : (s, g0) ∈ rest := by
        rcases List.mem_cons.mp hm with heq | hm2
        · exact absurd ((Prod.mk.injEq _ _ _ _ ▸ heq).1.symm) h1s
        · exact hm2
      exact List.mem_cons_of_mem _ (addToGroup_mem_app s x rest g0 hndr hm2)

theorem addToGroup_mem_new (s x : Nat) : ∀ (acc : List (Nat × List Nat)),
    s ∉ acc.map Prod.fst → (s, [x]) ∈ addToGroup acc s x
  | [], _ => by simp [addToGroup]
  | (k1, g1) :: rest, hs => by
    have h1s : k1 ≠ s := by
      intro hh
      exact hs (by simp [hh])
    have hsr : s ∉ rest.map Prod.fst := by
      intro hh
      exact hs (by simp [hh])
    simp only [addToGroup]
    rw [if_neg h1s]
    exact List.mem_cons_of_mem _ (addToGroup_mem_new s x rest hsr)

theorem addToGroup_mem_fwd (s x t : Nat) (grp : List Nat) :
    ∀ (acc : List (Nat × List Nat)),
      ((acc.map Prod.fst).Nodup) → (t, grp) ∈ addToGroup acc s x →
      (t ≠ s ∧ (t, grp) ∈ acc) ∨
        (t = s ∧ ((∃ g0, (s, g0) ∈ acc ∧ grp = g0 ++ [x]) ∨
          (s ∉ acc.map Prod.fst ∧ grp = [x])))
  | [], _, hm => by
    simp only [addToGroup, List.mem_singleton, Prod.mk.injEq] at hm
    exact Or.inr ⟨hm.1, Or.inr ⟨by simp, hm.2⟩⟩
  | (k1, g1) :: rest, hnd, hm => by
    have hk1 : k1 ∉ rest.map Prod.fst := by
      simp only [List.map_cons, List.nodup_cons] at hnd
      exact hnd.1
    have hndr : (rest.map Prod.fst).Nodup := by
      simp only [List.map_cons, List.nodup_cons] at hnd
      exact hnd.2
    simp only [addToGroup] at hm
    by_cases h1s : k1 = s
    · rw [if_pos h1s] at hm
      rcases List.mem_cons.mp hm with heq | hm2
      · have ht : t = k1 := (Prod.mk.injEq _ _ _ _ ▸ heq).1
        have hgrp : grp = g1 ++ [x] := (Prod.mk.injEq _ _ _ _ ▸ heq).2
        refine Or.inr ⟨ht.trans h1s, Or.inl ⟨g1, ?_, hgrp⟩⟩
        exact List.mem_cons.mpr (Or.inl (by rw [h1s]))
      · have hts : t ≠ s := by
          intro hh
          apply hk1
          rw [h1s]
          exact List.mem_map.mpr ⟨(t, grp), hm2, hh⟩
        exact Or.inl ⟨hts, List.mem_cons_of_mem _ hm2⟩
    · rw [if_neg h1s] at hm
      rcases List.mem_cons.mp hm with heq | hm2
      · have ht : t = k1 := (Prod.mk.injEq _ _ _ _ ▸ heq).1
        have hts : t ≠ s := fun hh => h1s (ht ▸ hh)
        exact Or.inl ⟨hts, List.mem_cons.mpr (Or.inl heq)⟩
      · rcases addToGroup_mem_fwd s x t grp rest hndr hm2 with ⟨hts, hmem⟩ | ⟨hts, hrest⟩
        · exact Or.inl ⟨hts, List.mem_cons_of_mem _ hmem⟩
        · rcases hrest with ⟨g0, hg0, hgrp⟩ | ⟨hnm, hgrp⟩
          · exact Or.inr ⟨hts, Or.inl ⟨g0, List.mem_cons_of_mem _ hg0, hgrp⟩⟩
          · refine Or.inr ⟨hts, Or.inr ⟨?_, hgrp⟩⟩
            simp only [List.map_cons, List.mem_cons]
            rintro (hh | hh)
            · exact h1s hh.symm
            · exact hnm hh

theorem groupsOf_invariant (b : Nat) : ∀ (xs processed : List Nat)
    (acc : List (Nat × List Nat)),
    ((acc.map Prod.fst).Nodup) →
    (∀ t grp, (t, grp) ∈ acc →
      grp = processed.filter fun x => decide (b ≠ x) && (scores b x == t)) →
    (∀ t, t ∉ acc.map Prod.fst →
      (processed.filter fun x => decide (b ≠ x) && (scores b x == t)) = []) →
    ∀ t grp,
      (t, grp) ∈ xs.foldl (fun acc2 possible =>
          if b ≠ possible then addToGroup acc2 (scores b possible) possible else acc2) acc →
      grp = (processed ++ xs).filter fun x => decide (b ≠ x) && (scores b x == t)
  | [], processed, acc, _, h2, _ => by
    intro t grp hm
    simpa using h2 t grp hm
  | x :: xs, processed, acc, h1, h2, h3 => by
    intro t grp hm
    rw [List.foldl_cons] at hm
    by_cases hbx : b ≠ x
    · rw [if_pos hbx] at hm
      have hkeys := addToGroup_keys (scores b x) x acc
      have h1' : (((addToGroup acc (scores b x) x).map Prod.fst)).Nodup := by
        rw [hkeys]
        by_cases hsk : scores b x ∈ acc.map Prod.fst
        · rw [if_pos hsk]; exact h1
        · rw [if_neg hsk]
          simp only [List.nodup_append, List.nodup_cons, List.not_mem_nil, not_false_iff,
            List.nodup_nil, and_true, true_and]
          refine ⟨h1, ?_⟩
          intro a ha hmem
          rcases List.mem_singleton.mp hmem with rfl
          exact hsk ha
      have h2' : ∀ t2 grp2, (t2, grp2) ∈ addToGroup acc (scores b x) x →
          grp2 = (processed ++ [x]).filter fun y => decide (b ≠ y) && (scores b y == t2) := by
        intro t2 grp2 hm2
        rcases addToGroup_mem_fwd (scores b x) x t2 grp2 acc h1 hm2 with
          ⟨hts, hmem⟩ | ⟨hts, hrest⟩
        · have hb2 : (scores b x == t2) = false :=
            beq_eq_false_iff_ne.mpr fun hh => hts hh.symm
          have hsingle :
              (List.filter (fun y => decide (b ≠ y) && (scores b y == t2)) [x]) = [] := by
            simp [hb2]
          rw [h2 t2 grp2 hmem, List.filter_append, hsingle, List.append_nil]
        · subst hts
          have hsingle :
              (List.filter (fun y => decide (b ≠ y) && (scores b y == scores b x)) [x])
                = [x] := by
            simp [hbx]
          rcases hrest with ⟨g0, hg0, hgrp⟩ | ⟨hnm, hgrp⟩
          · rw [hgrp, h2 _ g0 hg0, List.filter_append, hsingle]
          · rw [hgrp, List.filter_append, h3 _ hnm, hsingle, List.nil_append]
      have h3' : ∀ t2, t2 ∉ (addToGroup acc (scores b x) x).map Prod.fst →
          ((processed ++ [x]).filter fun y => decide (b ≠ y) && (scores b y == t2)) = [] := by
        intro t2 hnm
        have hsk : scores b x ∈ (addToGroup acc (scores b x) x).map Prod.fst := by
          rw [hkeys]
          by_cases hin : scores b x ∈ acc.map Prod.fst
          · rw [if_pos hin]; exact hin
          · rw [if_neg hin]; simp
        have hts : t2 ≠ scores b x := fun hh => hnm (hh ▸ hsk)
        have hnacc : t2 ∉ acc.map Prod.fst := by
          intro hin
          apply hnm
          rw [hkeys]
          by_cases hin2 : scores b x ∈ acc.map Prod.fst
          · rw [if_pos hin2]; exact hin
          · rw [if_neg hin2]; exact List.mem_append.mpr (Or.inl hin)
        have hb2 : (scores b x == t2) = false :=
          beq_eq_false_iff_ne.mpr fun hh => hts hh.symm
        have hsingle :
            (List.filter (fun y => decide (b ≠ y) && (scores b y == t2)) [x]) = [] := by
          simp [hb2]
        rw [List.filter_append, h3 t2 hnacc, hsingle, List.append_nil]
      have main := groupsOf_invariant b xs (processed ++ [x])
        (addToGroup acc (scores b x) x) h1' h2' h3' t grp hm
      simpa [List.append_assoc] using main
    · rw [if_neg hbx] at hm
      have hbeq : b = x := by omega
      have hsingle : ∀ t2,
          (List.filter (fun y => decide (b ≠ y) && (scores b y == t2)) [x]) = [] := by
        intro t2
        simp [hbeq]
      have h2' : ∀ t2 grp2, (t2, grp2) ∈ acc →
          grp2 = (processed ++ [x]).filter fun y => decide (b ≠ y) && (scores b y == t2) := by
        intro t2 grp2 hm2
        rw [h2 t2 grp2 hm2, List.filter_append, hsingle t2, List.append_nil]
      have h3' : ∀ t2, t2 ∉ acc.map Prod.fst →
          ((processed ++ [x]).filter fun y => decide (b ≠ y) && (scores b y == t2)) = [] := by
        intro t2 hnm
        rw [List.filter_append, h3 t2 hnm, hsingle t2, List.append_nil]
      have main := groupsOf_invariant b xs (processed ++ [x]) acc h1 h2' h3' t grp hm
      simpa [List.append_assoc] using main

theorem groupsOf_mem (b : Nat) (remaining : List Nat) (t : Nat) (grp : List Nat)
    (h : (t, grp) ∈ groupsOf b remaining) :
    grp = remaining.filter fun x => decide (b ≠ x) && (scores b x == t) := by
  have := groupsOf_invariant b remaining [] [] (by simp) (by simp) (by simp) t grp
  simpa [groupsOf] using this h

theorem count_singleton_nodup (r : Nat) (remaining : List Nat) (hnd : remaining.Nodup)
    (hr : r ∈ remaining) : remaining.count r = 1 :=
  List.count_eq_one_of_mem hnd hr

theorem countP_le_length_sub_one (p : Nat → Bool) :
    ∀ (l : List Nat) (a : Nat), a ∈ l → p a = false → l.countP p ≤ l.length - 1
  | x :: rest, a, ha, hpa => by
    rcases List.mem_cons.mp ha with rfl | harest
    · rw [List.countP_cons, hpa]
      have := List.countP_le_length (l := rest) (p := p)
      simp only [List.length_cons, Bool.false_eq_true, if_false]
      omega
    · have hlen : 1 ≤ rest.length := by
        cases rest with
        | nil => exact absurd harest (List.not_mem_nil a)
        | cons y l => simp
      have := countP_le_length_sub_one p rest a harest hpa
      rw [List.countP_cons]
      simp only [List.length_cons]
      by_cases hx : p x <;> simp [hx] <;> omega

theorem cost_le_of_mem (remaining : List Nat) (g0 : Nat) (hnd : remaining.Nodup)
    (hg0 : g0 ∈ remaining) (hg0b : g0 < 1296) (hrb : ∀ r ∈ remaining, r < 1296)
    (hlen : 2 ≤ remaining.length) :
    largest_group_size remaining g0 ≤ remaining.length - 1 := by
  apply largest_group_le
  intro s hs
  have hcount : (remaining.map fun r => scores g0 r).count s
      = remaining.countP fun x => scores g0 x == s := by
    rw [List.count, List.countP_map]
    rfl
  rw [hcount]
  by_cases hwin : s = WIN
  · subst hwin
    have hcnt1 : remaining.countP (fun x => x == g0) = 1 := by
      rw [← List.count]
      exact count_singleton_nodup g0 remaining hnd hg0
    have hlt : remaining.countP (fun x => x == g0) < remaining.length := by omega
    have hex : ∃ a ∈ remaining, ¬((fun x => x == g0) a = true) := by
      by_contra hall
      push_neg at hall
      have : remaining.countP (fun x => x == g0) = remaining.length :=
        List.countP_eq_length.mpr fun a ha => by
          rcases hb : ((a == g0) : Bool) with _ | _
          · exact absurd hb (by simpa using hall a ha)
          · rfl
      omega
    obtain ⟨a, ha, hpa⟩ := hex
    have hag : a ≠ g0 := by simpa using hpa
    have hfalse : (fun x => scores g0 x == WIN) a = false := by
      simp only [beq_eq_false_iff_ne, ne_eq]
      intro hsc
      exact hag ((scores_win_iff g0 a hg0b (hrb a ha)).mp hsc).symm
    exact countP_le_length_sub_one _ remaining a ha hfalse
  · have hfalse : (fun x => scores g0 x == s) g0 = false := by
      simp only [beq_eq_false_iff_ne, ne_eq]
      intro hsc
      exact hwin (hsc ▸ (scores_diag g0 hg0b) ▸ rfl)
    exact countP_le_length_sub_one _ remaining g0 hg0 hfalse

theorem task_strict_decrease (remaining guesses : List Nat) (b : Nat)
    (hnd : remaining.Nodup) (hrb : ∀ r ∈ remaining, r < 1296)
    (hgb : ∀ g ∈ guesses, g < 1296)
    (hex : ∃ g, g ∈ guesses ∧ g ∈ remaining)
    (hbest : find_best_guess guesses remaining = some b) :
    ∀ s grp, (s, grp) ∈ groupsOf b remaining →
      (∀ y ∈ grp, y ∈ remaining) ∧ b ∉ grp ∧ grp.length < remaining.length := by
  obtain ⟨g0, hg0g, hg0r⟩ := hex
  have hrem_ne : remaining ≠ [] := List.ne_nil_of_mem hg0r
  have hguess_ne : guesses ≠ [] := List.ne_nil_of_mem hg0g
  obtain ⟨m, b2, hb2, hbmem, hnb, hbound, htie⟩ := find_best_spec guesses remaining
    hrem_ne hguess_ne
  have hbb : b2 = b := by
    rw [hbest] at hb2
    exact (Option.some.injEq _ _ ▸ hb2).symm
  subst hbb
  intro s grp hgrp
  have hfilter := groupsOf_mem b2 remaining s grp hgrp
  have hsub : ∀ y ∈ grp, y ∈ remaining := by
    intro y hy
    rw [hfilter] at hy
    exact (List.mem_filter.mp hy).1
  have hnotb : b2 ∉ grp := by
    intro hb
    rw [hfilter] at hb
    have := (List.mem_filter.mp hb).2
    simp at this
  refine ⟨hsub, hnotb, ?_⟩
  have hlen1 : 1 ≤ remaining.length := by
    cases remaining with
    | nil => exact absurd rfl hrem_ne
    | cons a l => simp
  by_cases hsmall : remaining.length ≤ 1
  · have hlen : remaining.length = 1 := by omega
    obtain ⟨r, hr⟩ := List.length_eq_one.mp hlen
    subst hr
    have hcost1 : ∀ g, largest_group_size [r] g = 1 := fun g => largest_group_singleton r g
    have hbrem : b2 ∈ [r] := by
      apply htie
      refine ⟨g0, hg0g, ?_, hg0r⟩
      rw [hcost1 g0, ← hnb, hcost1 b2]
    have hbr : b2 = r := List.mem_singleton.mp hbrem
    subst hbr
    rw [hfilter]
    simp
  · have hlen2 : 2 ≤ remaining.length := by omega
    have hcostg0 := cost_le_of_mem remaining g0 hnd hg0r (hgb g0 hg0g) hrb hlen2
    have hmle : m ≤ remaining.length - 1 := le_trans (hbound g0 hg0g) hcostg0
    by_cases hgrpnil : grp = []
    · rw [hgrpnil]
      simp
      omega
    · obtain ⟨y, hy⟩ := List.exists_mem_of_ne_nil grp hgrpnil
      have hyrem : y ∈ remaining := hsub y hy
      have hys : scores b2 y = s := by
        rw [hfilter] at hy
        have := (List.mem_filter.mp hy).2
        simp only [Bool.and_eq_true, beq_iff_eq] at this
        exact this.2
      have hsmem : s ∈ remaining.map fun x => scores b2 x :=
        List.mem_map.mpr ⟨y, hyrem, hys⟩
      have hgl : grp.length ≤ (remaining.map fun x => scores b2 x).count s := by
        rw [hfilter]
        have hcount : (remaining.map fun x => scores b2 x).count s
            = remaining.countP fun x => scores b2 x == s := by
          rw [List.count, List.countP_map]
          rfl
        rw [hcount, ← List.countP_eq_length_filter]
        apply List.countP_mono_left
        intro x hx hpx
        simp only [Bool.and_eq_true] at hpx
        exact hpx.2
      have := count_le_largest_group remaining b2 s hsmem
      have hm := hnb
      omega

/-! ### The vectorized score implementation -/

theorem countP_and_split (p q : Nat × Nat → Bool) : ∀ (l : List (Nat × Nat)),
    l.countP (fun a => p a && q a) + l.countP (fun a => p a && !q a) = l.countP p
  | [] => rfl
  | x :: l => by
    have ih := countP_and_split p q l
    simp only [List.countP_cons]
    by_cases hp : p x <;> by_cases hq : q x <;> simp [hp, hq] <;> omega

theorem countP_zip_swap (p : Nat × Nat → Bool) : ∀ (g s : List Nat),
    (s.zip g).countP p = (g.zip s).countP (fun q => p (q.2, q.1))
  | [], s => by cases s <;> rfl
  | a :: g, [] => rfl
  | a :: g, b :: s => by
    simp only [List.zip_cons_cons, List.countP_cons, countP_zip_swap p g s]

theorem count_masked (g s : List Nat) (c : Nat) (hc : 1 ≤ c) :
    (vec_masked g s).count c
      = (g.zip s).countP (fun q => (q.1 == c) && !(q.1 == q.2)) := by
  rw [vec_masked, List.count, List.countP_map]
  apply List.countP_congr
  intro q _
  simp only [Function.comp]
  by_cases heq : q.1 = q.2
  · have hz : ((0 : Nat) == c) = false := by
      simp only [beq_eq_false_iff_ne, ne_eq]
      omega
    simp [heq, hz]
  · simp [heq]

theorem countP_zip_fst_eq (c : Nat) : ∀ (g s : List Nat), g.length = s.length →
    (g.zip s).countP (fun q => q.1 == c) = g.count c
  | [], [], _ => rfl
  | [], b :: s, h => by simp at h
  | a :: g, [], h => by simp at h
  | a :: g, b :: s, h => by
    simp only [List.zip_cons_cons, List.countP_cons, List.count_cons,
      countP_zip_fst_eq c g s (by simpa using h)]

theorem countP_zip_snd_eq (c : Nat) (g s : List Nat) (h : g.length = s.length) :
    (g.zip s).countP (fun q => q.2 == c) = s.count c := by
  calc (g.zip s).countP (fun q => q.2 == c)
      = (g.zip s).countP (fun q => (fun q2 : Nat × Nat => q2.1 == c) (q.2, q.1)) := rfl
    _ = (s.zip g).countP (fun q => q.1 == c) := (countP_zip_swap (fun q2 : Nat × Nat => q2.1 == c) g s).symm
    _ = s.count c := countP_zip_fst_eq c s g h.symm

theorem count_masked_left (g s : List Nat) (c : Nat) (hc : 1 ≤ c)
    (hlen : g.length = s.length) :
    (vec_masked g s).count c = g.count c - (matchedList g s).count c := by
  rw [count_masked g s c hc, count_matchedList]
  have hsplit := countP_and_split (fun q => q.1 == c) (fun q => q.1 == q.2) (g.zip s)
  have hc1 : (g.zip s).countP (fun q => (q.1 == c) && (q.1 == q.2))
      = (g.zip s).countP (fun q => (q.1 == q.2) && (q.1 == c)) := by
    apply List.countP_congr
    intro q _
    rw [Bool.and_comm]
  have hfst := countP_zip_fst_eq c g s hlen
  omega

theorem matchedList_swap_count (g s : List Nat) (c : Nat) :
    (matchedList s g).count c = (matchedList g s).count c := by
  rw [count_matchedList, count_matchedList, countP_zip_swap]
  apply List.countP_congr
  intro q _
  simp only []
  by_cases h12 : q.1 = q.2
  · simp [h12]
  · have h21 : ¬(q.2 = q.1) := fun hh => h12 hh.symm
    simp [h12, h21]

theorem count_masked_right (g s : List Nat) (c : Nat) (hc : 1 ≤ c)
    (hlen : g.length = s.length) :
    (vec_masked s g).count c = s.count c - (matchedList g s).count c := by
  rw [count_masked_left s g c hc hlen.symm, matchedList_swap_count]

theorem min_sub_sub (a b m : Nat) : min (a - m) (b - m) = min a b - m := by
  omega

set_option maxHeartbeats 1600000 in
theorem vec_white_eq (g s : List Nat) (hg : ∀ x ∈ g, 1 ≤ x ∧ x ≤ 6)
    (hlen : g.length = s.length) :
    vec_white g s = counter_inter_total g s - (g.zip s).countP (fun p => p.1 == p.2) := by
  have h1l := count_masked_left g s 1 (by omega) hlen
  have h2l := count_masked_left g s 2 (by omega) hlen
  have h3l := count_masked_left g s 3 (by omega) hlen
  have h4l := count_masked_left g s 4 (by omega) hlen
  have h5l := count_masked_left g s 5 (by omega) hlen
  have h6l := count_masked_left g s 6 (by omega) hlen
  have h1r := count_masked_right g s 1 (by omega) hlen
  have h2r := count_masked_right g s 2 (by omega) hlen
  have h3r := count_masked_right g s 3 (by omega) hlen
  have h4r := count_masked_right g s 4 (by omega) hlen
  have h5r := count_masked_right g s 5 (by omega) hlen
  have h6r := count_masked_right g s 6 (by omega) hlen
  simp only [vec_white, List.map_cons, List.map_nil, List.sum_cons, List.sum_nil]
  rw [h1l, h2l, h3l, h4l, h5l, h6l, h1r, h2r, h3r, h4r, h5r, h6r,
    min_sub_sub, min_sub_sub, min_sub_sub, min_sub_sub, min_sub_sub, min_sub_sub,
    inter_eq_sum_min g s hg, black_eq_sum_matched g s hg]
  clear h1l h2l h3l h4l h5l h6l h1r h2r h3r h4r h5r h6r
  have f1 : (matchedList g s).count 1 ≤ min (g.count 1) (s.count 1) :=
    le_min (count_matchedList_le_left g s 1) (count_matchedList_le_right g s 1)
  have f2 : (matchedList g s).count 2 ≤ min (g.count 2) (s.count 2) :=
    le_min (count_matchedList_le_left g s 2) (count_matchedList_le_right g s 2)
  have f3 : (matchedList g s).count 3 ≤ min (g.count 3) (s.count 3) :=
    le_min (count_matchedList_le_left g s 3) (count_matchedList_le_right g s 3)
  have f4 : (matchedList g s).count 4 ≤ min (g.count 4) (s.count 4) :=
    le_min (count_matchedList_le_left g s 4) (count_matchedList_le_right g s 4)
  have f5 : (matchedList g s).count 5 ≤ min (g.count 5) (s.count 5) :=
    le_min (count_matchedList_le_left g s 5) (count_matchedList_le_right g s 5)
  have f6 : (matchedList g s).count 6 ≤ min (g.count 6) (s.count 6) :=
    le_min (count_matchedList_le_left g s 6) (count_matchedList_le_right g s 6)
  omega

theorem vec_entry_eq (g s : List Nat) (hg : ∀ x ∈ g, 1 ≤ x ∧ x ≤ 6)
    (hlen : g.length = s.length) :
    vec_encoded g s = encode_score (get_score g s) := by
  have hw := vec_white_eq g s hg hlen
  have hble := black_le_inter g s
  rw [vec_encoded, vec_black, hw, get_score_eq, encode_score]
  simp only []
  omega

theorem step_score_eq (M : Mastermind) (secret guess : List Nat) :
    (M.set secret).step_score guess = get_score guess secret := by
  rw [Mastermind.step_score, get_score_eq, Mastermind.set]
  simp only []
  rw [black_sym]
  have hinter : ((secret : Multiset Nat) ∩ (guess : Multiset Nat)).card
      = counter_inter_total guess secret := by
    rw [counter_inter_total, Multiset.inter_comm]
  rw [hinter]

/-! ### Decided facts about the reference configuration -/

/-- The table entry computed directly from the codec and scorer (used to keep
kernel evaluation of decided facts cheap). -/
def score_direct (i j : Nat) : Nat :=
  encode_score (get_score (decode_guess i) (decode_guess j))

theorem scores_eq_direct (i j : Nat) (hi : i < 1296) (hj : j < 1296) :
    scores i j = score_direct i j :=
  scores_entry i j hi hj

theorem check_wlog_iff_ball :
    ∀ i, i < 1296 → (check_wlog i = true ↔ specCanonical (decode_guess i)) := by
  decide!

theorem check_wlog_count :
    starting_possibilities.countP (fun g => check_wlog (encode_guess g)) = 299 := by
  decide!

theorem depth2_canonical_ball :
    (let canonScores :=
      (((List.range 1296).filter fun y => !(y == 7) && check_wlog y).map
        (fun y => score_direct 7 y)).dedup;
    ((List.range 1296).filter fun x => !(x == 7)).all fun x =>
      canonScores.contains (score_direct 7 x)) = true := by
  decide!

theorem depth2_canonical : ∀ s grp, (s, grp) ∈ groupsOf 7 starting_poss_indexes →
    grp ≠ [] → ∃ y, y ∈ starting_poss_indexes.filter check_wlog ∧ y ∈ grp := by
  intro s grp hmem hne
  have hfilter := groupsOf_mem 7 starting_poss_indexes s grp hmem
  obtain ⟨x, hx⟩ := List.exists_mem_of_ne_nil grp hne
  rw [hfilter] at hx
  have hxspi : x ∈ starting_poss_indexes := (List.mem_filter.mp hx).1
  have hxcond := (List.mem_filter.mp hx).2
  simp only [Bool.and_eq_true, decide_eq_true_eq, beq_iff_eq] at hxcond
  obtain ⟨hx7, hxs⟩ := hxcond
  have hxlt : x < 1296 := by
    have : x ∈ List.range 1296 := hxspi
    exact List.mem_range.mp this
  have hball : ((List.range 1296).filter fun z => !(z == 7)).all (fun z =>
      ((((List.range 1296).filter fun y => !(y == 7) && check_wlog y).map
        (fun y => score_direct 7 y)).dedup).contains (score_direct 7 z)) = true :=
    depth2_canonical_ball
  have hx_in : x ∈ (List.range 1296).filter fun z => !(z == 7) := by
    apply List.mem_filter.mpr
    refine ⟨List.mem_range.mpr hxlt, ?_⟩
    simp only [Bool.not_eq_eq_eq_not, Bool.not_true, beq_eq_false_iff_ne, ne_eq]
    exact fun hh => hx7 hh.symm
  have hcont := List.all_eq_true.mp hball x hx_in
  have hmemd := (contains_iff_mem _ _).mp hcont
  have hmemmap := List.mem_dedup.mp hmemd
  obtain ⟨y, hyfil, hyscore⟩ := List.mem_map.mp hmemmap
  have hyr : y ∈ List.range 1296 := (List.mem_filter.mp hyfil).1
  have hylt : y < 1296 := List.mem_range.mp hyr
  have hycond := (List.mem_filter.mp hyfil).2
  simp only [Bool.and_eq_true, Bool.not_eq_eq_eq_not, Bool.not_true,
    beq_eq_false_iff_ne, ne_eq] at hycond
  obtain ⟨hy7, hywlog⟩ := hycond
  have hsy : scores 7 y = s := by
    rw [scores_eq_direct 7 y (by omega) hylt, hyscore,
      ← scores_eq_direct 7 x (by omega) hxlt, hxs]
  refine ⟨y, ?_, ?_⟩
  · exact List.mem_filter.mpr ⟨hyr, hywlog⟩
  · rw [hfilter]
    apply List.mem_filter.mpr
    refine ⟨hyr, ?_⟩
    simp only [Bool.and_eq_true, decide_eq_true_eq, beq_iff_eq]
    exact ⟨fun hh => hy7 hh.symm, hsy⟩

/-! ### Claim theorems -/

/-- C2: the codec is a bijection between valid codes and indices in
`[0, 1296)`: `encode_guess (decode_guess i) = i` for every index below
`6 ^ 4`, `decode_guess (encode_guess c) = c` for every length-4 code with
colors in `1..6`, and encoding reads the code as a base-6 number whose digits
are the colors minus one. -/
theorem C2_codec_bijection :
    (∀ i, i < 1296 → encode_guess (decode_guess i) = i) ∧
    (∀ c : List Nat, c.length = 4 → (∀ x ∈ c, 1 ≤ x ∧ x ≤ 6) →
      decode_guess (encode_guess c) = c) ∧
    (∀ a b e d : Nat, encode_guess [a, b, e, d]
      = (((a - 1) * 6 + (b - 1)) * 6 + (e - 1)) * 6 + (d - 1)) := by
  refine ⟨encode_decode_ball, ?_, ?_⟩
  · intro c h1 h2
    exact decode_encode_of_valid h1 h2
  · intro a b e d
    simp [encode_guess]

theorem C2_codec_bijection_witness :
    encode_guess (decode_guess 100) = 100 ∧
      decode_guess (encode_guess [1, 2, 3, 4]) = [1, 2, 3, 4] :=
  ⟨C2_codec_bijection.1 100 (by decide),
    C2_codec_bijection.2.1 [1, 2, 3, 4] (by decide) (by decide)⟩

/-- C3 counterexample: neither codec function fails on out-of-range input.
`encode_guess` happily encodes the out-of-range code `(7,7,7,7)` (to 1554)
and the length-1 code `(1)` (to 0), and `decode_guess` returns the ordinary
code `(1,1,1,1)` for the out-of-range index 1296, aliasing index 0 — no
`InvalidCode` failure path exists in the source. -/
theorem C3_counterexample : encode_guess [7, 7, 7, 7] = 1554 ∧
    encode_guess [1] = 0 ∧ decode_guess 1296 = [1, 1, 1, 1] ∧
    decode_guess 1296 = decode_guess 0 := by
  refine ⟨by decide, by decide, by decide, by decide⟩

/-- C3 (amended): the codec performs no input validation.  `decode_guess`
totally returns the code of the low four base-6 digits of any index (so
indices outside `[0, 1296)` alias their residue mod 1296, always yielding a
well-formed code), and on valid input the two functions are mutually
inverse; neither ever fails. -/
theorem C3_amended_no_validation :
    (∀ i : Nat, decode_guess i = decode_guess (i % 1296)) ∧
    (∀ i : Nat, (decode_guess i).length = 4 ∧ ∀ x ∈ decode_guess i, 1 ≤ x ∧ x ≤ 6) ∧
    (∀ i, i < 1296 → encode_guess (decode_guess i) = i) ∧
    (∀ c : List Nat, c.length = 4 → (∀ x ∈ c, 1 ≤ x ∧ x ≤ 6) →
      decode_guess (encode_guess c) = c) := by
  refine ⟨decode_guess_mod, ?_, encode_decode_ball, ?_⟩
  · intro i
    exact ⟨decode_guess_length i, decode_guess_valid i⟩
  · intro c h1 h2
    exact decode_encode_of_valid h1 h2

theorem C3_amended_no_validation_witness :
    encode_guess (decode_guess 7) = 7 ∧
      decode_guess (encode_guess [6, 6, 6, 6]) = [6, 6, 6, 6] :=
  ⟨C3_amended_no_validation.2.2.1 7 (by decide),
    C3_amended_no_validation.2.2.2 [6, 6, 6, 6] (by decide) (by decide)⟩

/-- C4: scoring is symmetric — `get_score a b = get_score b a` for all codes
(in particular all valid ones), hence every entry of the score table mirrors:
`scores i j = scores j i` on `[0, 1296)²`. -/
theorem C4_score_symmetry :
    (∀ a b : List Nat, get_score a b = get_score b a) ∧
    (∀ i j : Nat, i < 1296 → j < 1296 → scores i j = scores j i) := by
  refine ⟨get_score_sym, ?_⟩
  intro i j _ _
  exact scores_sym i j

theorem C4_score_symmetry_witness :
    get_score [1, 2, 3, 4] [5, 3, 6, 2] = get_score [5, 3, 6, 2] [1, 2, 3, 4] ∧
      scores 3 1200 = scores 1200 3 :=
  ⟨C4_score_symmetry.1 [1, 2, 3, 4] [5, 3, 6, 2],
    C4_score_symmetry.2 3 1200 (by decide) (by decide)⟩

/-- C5: for length-4 codes the score `(black, white)` satisfies
`black ≤ 4`, `0 ≤ white` and `black + white ≤ 4`; a code scored against
itself gives the winning score `(4, 0)`, so every diagonal entry of the score
table encodes `WIN`. -/
theorem C5_score_bounds_and_win :
    (∀ a b : List Nat, a.length = 4 → b.length = 4 →
      (get_score a b).1 ≤ 4 ∧ 0 ≤ (get_score a b).2 ∧
        (get_score a b).1 + (get_score a b).2 ≤ 4) ∧
    (∀ c : List Nat, c.length = 4 → get_score c c = (4, 0)) ∧
    (∀ i, i < 1296 → scores i i = WIN) := by
  refine ⟨?_, ?_, ?_⟩
  · intro a b ha _
    have := get_score_bounds a b ha
    exact ⟨this.1, Nat.zero_le _, this.2⟩
  · intro c hc
    rw [get_score_diag, hc]
  · intro i hi
    exact scores_diag i hi

theorem C5_score_bounds_and_win_witness :
    ((get_score [1, 1, 2, 2] [2, 2, 1, 1]).1 ≤ 4 ∧
      0 ≤ (get_score [1, 1, 2, 2] [2, 2, 1, 1]).2 ∧
      (get_score [1, 1, 2, 2] [2, 2, 1, 1]).1
        + (get_score [1, 1, 2, 2] [2, 2, 1, 1]).2 ≤ 4) ∧
    get_score [4, 5, 2, 2] [4, 5, 2, 2] = (4, 0) ∧ scores 77 77 = WIN :=
  ⟨C5_score_bounds_and_win.1 [1, 1, 2, 2] [2, 2, 1, 1] (by decide) (by decide),
    C5_score_bounds_and_win.2.1 [4, 5, 2, 2] (by decide),
    C5_score_bounds_and_win.2.2 77 (by decide)⟩

/-- C6: `check_wlog` on an encoded valid code holds exactly when the code's
distinct colors, sorted descending, never place a color above 3 more than one
above the next lower distinct color, and some color is at most 3 (the
smallest color does not exceed 3); only 299 of the 1,296 codes are canonical,
under one quarter of the space. -/
theorem C6_check_wlog_characterization :
    (∀ c : List Nat, c.length = 4 → (∀ x ∈ c, 1 ≤ x ∧ x ≤ 6) →
      (check_wlog (encode_guess c) = true ↔ specCanonical c)) ∧
    starting_possibilities.countP (fun g => check_wlog (encode_guess g)) = 299 ∧
    4 * 299 < 6 ^ 4 := by
  refine ⟨?_, check_wlog_count, by norm_num⟩
  intro c h1 h2
  have hlt := encode_lt_of_valid h1 h2
  have hdec := decode_encode_of_valid h1 h2
  have hball := check_wlog_iff_ball (encode_guess c) hlt
  rwa [hdec] at hball

theorem C6_check_wlog_characterization_witness :
    (check_wlog (encode_guess [2, 2, 1, 1]) = true ↔ specCanonical [2, 2, 1, 1]) ∧
      (check_wlog (encode_guess [5, 1, 1, 1]) = true ↔ specCanonical [5, 1, 1, 1]) :=
  ⟨C6_check_wlog_characterization.1 [2, 2, 1, 1] (by decide) (by decide),
    C6_check_wlog_characterization.1 [5, 1, 1, 1] (by decide) (by decide)⟩

/-- C7: the selection loop of `Knuth.solve` always returns a candidate guess
minimizing the size of the largest score-group `remaining` splits into; each
score-class of `remaining` is no larger than that largest-group cost; and on
an exact cost tie one loop step replaces the current best exactly when the
current best has left the remaining set and the new candidate is in it
(otherwise the earlier candidate is kept). -/
theorem C7_guess_selection :
    (∀ guesses remaining : List Nat, remaining ≠ [] → guesses ≠ [] →
      ∃ b, find_best_guess guesses remaining = some b ∧ b ∈ guesses ∧
        ∀ g ∈ guesses, largest_group_size remaining b ≤ largest_group_size remaining g) ∧
    (∀ (remaining : List Nat) (g s : Nat),
      (remaining.filter fun r => scores g r == s).length
        ≤ largest_group_size remaining g) ∧
    (∀ (remaining : List Nat) (g b m : Nat), remaining ≠ [] →
      largest_group_size remaining g = m →
      findBestAux remaining (some m, some b) g
        = if b ∉ remaining ∧ g ∈ remaining then (some m, some g)
          else (some m, some b)) := by
  refine ⟨?_, ?_, ?_⟩
  · intro guesses remaining hrem hg
    obtain ⟨m, b, h1, h2, h3, h4, _⟩ := find_best_spec guesses remaining hrem hg
    refine ⟨b, h1, h2, ?_⟩
    intro g hgmem
    rw [h3]
    exact h4 g hgmem
  · intro remaining g s
    by_cases hmem : s ∈ remaining.map fun r => scores g r
    · have h1 : (remaining.filter fun r => scores g r == s).length
          = (remaining.map fun r => scores g r).count s := by
        rw [List.count, List.countP_map, ← List.countP_eq_length_filter]
        rfl
      rw [h1]
      exact count_le_largest_group remaining g s hmem
    · have hnil : (remaining.filter fun r => scores g r == s) = [] := by
        rw [List.filter_eq_nil_iff]
        intro r hr
        intro hcontra
        rw [beq_iff_eq] at hcontra
        exact hmem (List.mem_map.mpr ⟨r, hr, hcontra⟩)
      rw [hnil]
      exact Nat.zero_le _
  · intro remaining g b m hrem heq
    exact findBestAux_tie remaining g b m hrem heq

theorem C7_guess_selection_witness :
    (∃ b, find_best_guess [0, 1] [0, 1] = some b ∧ b ∈ [0, 1] ∧
      ∀ g ∈ [0, 1], largest_group_size [0, 1] b ≤ largest_group_size [0, 1] g) ∧
    ((List.filter (fun r => scores 0 r == 48) [0, 1]).length
      ≤ largest_group_size [0, 1] 0) ∧
    findBestAux [0, 1] (some 1, some 5) 1
      = if 5 ∉ [0, 1] ∧ 1 ∈ [0, 1] then (some 1, some 1) else (some 1, some 5) :=
  ⟨C7_guess_selection.1 [0, 1] [0, 1] (by decide) (by decide),
    C7_guess_selection.2.1 [0, 1] 0 48,
    C7_guess_selection.2.2 [0, 1] 1 5 1 (by decide) (by decide)⟩

/-- C8: the precomputed table agrees everywhere on `[0, 1296)²` with the
direct score function composed with the codec, and the per-pair semantics of
the vectorized implementation yields exactly the same encoded entry, so the
two implementations build identical matrices. -/
theorem C8_table_oracle_equivalence :
    ∀ i j : Nat, i < 1296 → j < 1296 →
      scores i j = encode_score (get_score (decode_guess i) (decode_guess j)) ∧
      vec_encoded (starting_possibilities.getD i []) (starting_possibilities.getD j [])
        = scores i j := by
  intro i j hi hj
  refine ⟨scores_entry i j hi hj, ?_⟩
  rw [starting_possibilities_getD i hi, starting_possibilities_getD j hj]
  rw [vec_entry_eq (decode_guess i) (decode_guess j) (decode_guess_valid i)
    (by rw [decode_guess_length, decode_guess_length])]
  exact (scores_entry i j hi hj).symm

theorem C8_table_oracle_equivalence_witness :
    (scores 100 200 = encode_score (get_score (decode_guess 100) (decode_guess 200)) ∧
      vec_encoded (starting_possibilities.getD 100 []) (starting_possibilities.getD 200 [])
        = scores 100 200) :=
  C8_table_oracle_equivalence 100 200 (by decide) (by decide)

/-- C9: for any task whose candidate list meets the remaining set, the guess
the loop selects is excluded from every partition group, each group is a
subset of the remaining set, and each group is strictly smaller than the
remaining set; the hypothesis holds along every path of the reference run —
the starting candidates all lie in the initial remaining set, every nonempty
depth-2 group (after the root guess `(1,1,2,2)`, index 7) contains a canonical
candidate, and deeper tasks draw candidates from the full index range — so
remaining-set size strictly decreases along any path, bounded by `6 ^ 4`. -/
theorem C9_partition_strictly_decreases :
    (∀ (remaining guesses : List Nat) (b : Nat), remaining.Nodup →
      (∀ r ∈ remaining, r < 1296) → (∀ g ∈ guesses, g < 1296) →
      (∃ g, g ∈ guesses ∧ g ∈ remaining) →
      find_best_guess guesses remaining = some b →
      ∀ s grp, (s, grp) ∈ groupsOf b remaining →
        (∀ y ∈ grp, y ∈ remaining) ∧ b ∉ grp ∧ grp.length < remaining.length) ∧
    (∀ g ∈ starting_guess_indexes, g ∈ starting_poss_indexes) ∧
    (∀ s grp, (s, grp) ∈ groupsOf 7 starting_poss_indexes → grp ≠ [] →
      ∃ y, y ∈ starting_poss_indexes.filter check_wlog ∧ y ∈ grp) ∧
    starting_poss_indexes.length = 6 ^ 4 := by
  refine ⟨?_, by decide, depth2_canonical, by decide⟩
  intro remaining guesses b hnd hrb hgb hex hbest
  exact task_strict_decrease remaining guesses b hnd hrb hgb hex hbest

theorem C9_partition_strictly_decreases_witness :
    (∀ y ∈ [1], y ∈ [0, 1]) ∧ 0 ∉ [1] ∧ [1].length < [0, 1].length :=
  C9_partition_strictly_decreases.1 [0, 1] [0] 0 (by decide) (by decide)
    (by decide) ⟨0, by decide, by decide⟩ (by decide) 48 [1] (by decide)

/-- C10: the game environment scores exactly like the standalone scorer —
after `Mastermind.set secret`, a `step guess` with `return_history` false
returns `Sum.inr (get_score guess secret)` — because `set` re-establishes the
invariant that `secret_counts` is the color multiset of the stored secret. -/
theorem C10_environment_agrees :
    (∀ (M : Mastermind) (secret guess : List Nat), M.return_history = false →
      ((M.set secret).step guess).2 = Sum.inr (get_score guess secret)) ∧
    (∀ (M : Mastermind) (secret : List Nat),
      (M.set secret).secret_counts = (secret : Multiset Nat)) := by
  constructor
  · intro M secret guess h
    have hs := step_score_eq M secret guess
    have hrh : (M.set secret).return_history = M.return_history := rfl
    simp only [Mastermind.step, hs, hrh, h]
    rfl
  · intro M secret
    rfl

theorem C10_environment_agrees_witness :
    (((Mastermind.mk [] 0 false []).set [1, 2, 3, 4]).step [1, 1, 2, 2]).2
      = Sum.inr (get_score [1, 1, 2, 2] [1, 2, 3, 4]) ∧
    ((Mastermind.mk [] 0 false []).set [1, 2, 3, 4]).secret_counts
      = ([1, 2, 3, 4] : Multiset Nat) :=
  ⟨C10_environment_agrees.1 (Mastermind.mk [] 0 false []) [1, 2, 3, 4] [1, 1, 2, 2] rfl,
    C10_environment_agrees.2 (Mastermind.mk [] 0 false []) [1, 2, 3, 4]⟩
